import Mathlib

/-!
Verification of the poir-viewer utility scripts.

This file shallowly embeds the two Python scripts of the repository:

* `generate_project_summary.py` — the project summarizer: ignore-pattern
  loading (`read_gitignore`, `read_summaryignore`, `read_structureignore`),
  the matching function `is_ignored`, binary detection `is_binary`,
  encoding-fallback reading `read_file_contents`, and the recursive
  walker `traverse_directory` inside `generate_project_summary`.
* `.dev/create_app_icons.py` — the icon exporter `create_app_icons`.

Filesystem reads, the PIL image library, Python codecs and the external
`iconutil` tool are treated as primitives: directory trees are explicit
`FSEntry` values, file contents are byte lists, image resizing is modelled
on pixel dimensions, codecs are abstract partial decoding functions, and
the external packaging step is an abstract `Except` result.

Python's `fnmatch.fnmatch` (shell-glob matching with `*`, `?` and `[...]`
character classes; `os.path.normcase` is the identity on POSIX) is modelled
by the hand-rolled matcher `globMatch` below, as the specification directs
("treated abstractly as shell-glob match ... or a small hand-rolled matcher
reproducing `*`/`?`/character-class semantics").
-/

/-- Replace every occurrence of the character `a` by `b`, modelling Python's
single-character `str.replace`. -/
def replaceChar (a b : Char) (s : String) : String :=
  String.mk (s.data.map (fun c => if c = a then b else c))

/-- Scan for the closing `]` of a character class: returns the characters
before the first `]` and the remainder after it, or `none` when there is
no `]`.  Models the closing-bracket scan of Python's `fnmatch.translate`. -/
def scanClose : List Char → Option (List Char × List Char)
  | [] => none
  | c :: r => if c = ']' then some ([], r) else (scanClose r).map (fun p => (c :: p.1, p.2))

theorem scanClose_length : ∀ {l : List Char} {s t : List Char},
    scanClose l = some (s, t) → t.length < l.length := by
  intro l
  induction l with
  | nil => intro s t h; simp [scanClose] at h
  | cons c r ih =>
    intro s t h
    by_cases hc : c = ']'
    · rw [scanClose, if_pos hc] at h
      have h' := Option.some.inj h
      rw [Prod.mk.injEq] at h'
      rw [← h'.2]
      simp
    · rw [scanClose, if_neg hc] at h
      cases hsc : scanClose r with
      | none => rw [hsc] at h; simp at h
      | some q =>
        rw [hsc] at h
        simp only [Option.map_some'] at h
        have h2 : q.2 = t := congrArg Prod.snd (Option.some.inj h)
        have hlt : q.2.length < r.length := ih (by rw [hsc])
        rw [← h2]
        simp only [List.length_cons]
        omega

/-- Auxiliary: any branch of `bracketSplit` that post-processes a successful
`scanClose` keeps the remainder, so the remainder is shorter than the
scanned list. -/
theorem map_scanClose_length {x : List Char} {g : List Char × List Char → List Char}
    {s t : List Char}
    (h : (scanClose x).map (fun p => (g p, p.2)) = some (s, t)) : t.length < x.length := by
  cases hsc : scanClose x with
  | none => rw [hsc] at h; simp at h
  | some q =>
    rw [hsc] at h
    simp only [Option.map_some'] at h
    have h2 : q.2 = t := congrArg Prod.snd (Option.some.inj h)
    have hlt : q.2.length < x.length := scanClose_length (by rw [hsc])
    rw [← h2]
    exact hlt

/-- Split the part of the pattern that follows a `[` into the class body
(up to the matching `]`) and the rest of the pattern.  Mirrors the index
scan of `fnmatch.translate`: a `!` just after `[` and a `]` right after
that (or right after `[`) belong to the class body; `none` when no closing
`]` exists (the `[` is then a literal character). -/
def bracketSplit (ps : List Char) : Option (List Char × List Char) :=
  match ps with
  | [] => none
  | c1 :: r1 =>
    if c1 = '!' then
      match r1 with
      | [] => none
      | c2 :: r2 =>
        if c2 = ']' then (scanClose r2).map (fun p => (c1 :: c2 :: p.1, p.2))
        else (scanClose r1).map (fun p => (c1 :: p.1, p.2))
    else if c1 = ']' then (scanClose r1).map (fun p => (c1 :: p.1, p.2))
    else scanClose ps

theorem splitClass_length {ps s t : List Char} (h : bracketSplit ps = some (s, t)) :
    t.length < ps.length := by
  match ps with
  | [] => simp [bracketSplit] at h
  | c1 :: r1 =>
    rw [bracketSplit.eq_def] at h
    simp only [] at h
    by_cases h1 : c1 = '!'
    · rw [if_pos h1] at h
      match r1 with
      | [] => simp at h
      | c2 :: r2 =>
        simp only [] at h
        by_cases h2 : c2 = ']'
        · rw [if_pos h2] at h
          have := map_scanClose_length h
          simp only [List.length_cons] at this ⊢
          omega
        · rw [if_neg h2] at h
          have := map_scanClose_length h
          simp only [List.length_cons] at this ⊢
          omega
    · rw [if_neg h1] at h
      by_cases h2 : c1 = ']'
      · rw [if_pos h2] at h
        have := map_scanClose_length h
        simp only [List.length_cons] at this ⊢
        omega
      · rw [if_neg h2] at h
        have := scanClose_length h
        omega

/-- Membership of a character in a character-class body: items are read left
to right, `x-y` (with `-` neither first nor last) denotes a code-point
range, other characters are literals. -/
def bracketMem : List Char → Char → Bool
  | [], _ => false
  | a :: '-' :: b :: rest, c => (a.toNat ≤ c.toNat && c.toNat ≤ b.toNat) || bracketMem rest c
  | a :: rest, c => (a == c) || bracketMem rest c

/-- A character class matches a character; a leading `!` negates the class. -/
def bracketMatch (stuff : List Char) (c : Char) : Bool :=
  match stuff with
  | '!' :: rest => !(bracketMem rest c)
  | _ => bracketMem stuff c

/-- Shell-glob matching of a pattern (first argument) against a string
(second argument): `*` matches any sequence of characters (slashes
included, as in `fnmatch`), `?` any single character, `[...]` a character
class, and a `[` without a closing `]` is a literal. -/
def globMatch : List Char → List Char → Bool
  | [], [] => true
  | [], _ :: _ => false
  | p :: ps, s =>
    if p = '*' then
      globMatch ps s ||
        (match s with
         | [] => false
         | _ :: s' => globMatch (p :: ps) s')
    else if p = '?' then
      match s with
      | [] => false
      | _ :: s' => globMatch ps s'
    else if p = '[' then
      match hsp : bracketSplit ps with
      | none =>
        match s with
        | [] => false
        | c :: s' => (c == '[') && globMatch ps s'
      | some (stuff, rest) =>
        match s with
        | [] => false
        | c :: s' => bracketMatch stuff c && globMatch rest s'
    else
      match s with
      | [] => false
      | c :: s' => (c == p) && globMatch ps s'
termination_by p s => (p.length, s.length)
decreasing_by
  all_goals simp only [List.length_cons]
  · exact Prod.Lex.left _ _ (by omega)
  · exact Prod.Lex.right _ (by omega)
  · exact Prod.Lex.left _ _ (by omega)
  · exact Prod.Lex.left _ _ (by omega)
  · exact Prod.Lex.left _ _ (by have := splitClass_length hsp; omega)
  · exact Prod.Lex.left _ _ (by omega)

/-- Model of `fnmatch.fnmatch(name, pattern)`; `os.path.normcase` is the identity on
the POSIX platform the summarizer is modelled on. -/
def fnmatch (name pattern : String) : Bool :=
  globMatch pattern.data name.data

/-! ## Summarizer: data model -/

/-- A filesystem entry as the walker sees it: a file carries its raw bytes
(the filesystem read is a primitive), a directory its `os.listdir` entries
in listing order. -/
inductive FSEntry where
  | file (name : String) (bytes : List Nat)
  | dir (name : String) (children : List FSEntry)

/-- The entry's `os.path.basename`. -/
def entryName : FSEntry → String
  | .file n _ => n
  | .dir n _ => n

/-- The entry's `os.path.isdir` flag. -/
def isDirEntry : FSEntry → Bool
  | .file _ _ => false
  | .dir _ _ => true

/-- Model of `os.path.relpath(path, project_dir)` rendered from the path components
relative to the project root, on a POSIX filesystem: `"."` for the root
itself, components joined with `/` otherwise. -/
def renderRel : List String → String
  | [] => "."
  | [c] => c
  | c :: rest => c ++ "/" ++ renderRel rest

/-- Insertion into a `≤`-sorted list, keyed by `key`; stable, as Python's
`sorted` is. -/
def insertKeyed {α : Type} (key : α → String) (a : α) : List α → List α
  | [] => [a]
  | b :: l => if key a ≤ key b then a :: b :: l else b :: insertKeyed key a l

/-- Python's `sorted(...)` on names (lexicographic by code point). -/
def sortKeyed {α : Type} (key : α → String) : List α → List α
  | [] => []
  | a :: l => insertKeyed key a (sortKeyed key l)

theorem mem_insertKeyed {α : Type} {key : α → String} {a x : α} : ∀ {l : List α},
    x ∈ insertKeyed key a l → x = a ∨ x ∈ l := by
  intro l
  induction l with
  | nil => intro h; simp [insertKeyed] at h; exact Or.inl h
  | cons b r ih =>
    intro h
    rw [insertKeyed] at h
    by_cases hk : key a ≤ key b
    · rw [if_pos hk] at h
      simp only [List.mem_cons] at h
      rcases h with h | h | h
      · exact Or.inl h
      · exact Or.inr (by simp [h])
      · exact Or.inr (by simp [h])
    · rw [if_neg hk] at h
      simp only [List.mem_cons] at h
      rcases h with h | h
      · exact Or.inr (by simp [h])
      · rcases ih h with h' | h'
        · exact Or.inl h'
        · exact Or.inr (by simp [h'])

theorem mem_sortKeyed {α : Type} {key : α → String} {x : α} : ∀ {l : List α},
    x ∈ sortKeyed key l → x ∈ l := by
  intro l
  induction l with
  | nil => intro h; simp [sortKeyed] at h
  | cons a r ih =>
    intro hmem
    rw [sortKeyed] at hmem
    rcases mem_insertKeyed hmem with h' | h'
    · simp [h']
    · simp [ih h']

theorem insertKeyed_mem {α : Type} {key : α → String} {a x : α} : ∀ {l : List α},
    (x = a ∨ x ∈ l) → x ∈ insertKeyed key a l := by
  intro l
  induction l with
  | nil => intro h; simp [insertKeyed]; tauto
  | cons b r ih =>
    intro h
    rw [insertKeyed]
    by_cases hk : key a ≤ key b
    · rw [if_pos hk]
      rcases h with h | h
      · simp [h]
      · simp at h
        rcases h with h | h
        · simp [h]
        · simp [h]
    · rw [if_neg hk]
      rcases h with h | h
      · simp [ih (Or.inl h)]
      · simp at h
        rcases h with h | h
        · simp [h]
        · simp [ih (Or.inr h)]

theorem sortKeyed_mem {α : Type} {key : α → String} {x : α} : ∀ {l : List α},
    x ∈ l → x ∈ sortKeyed key l := by
  intro l
  induction l with
  | nil => intro h; simp at h
  | cons a r ih =>
    intro h
    rw [sortKeyed]
    simp at h
    rcases h with h | h
    · exact insertKeyed_mem (Or.inl h)
    · exact insertKeyed_mem (Or.inr (ih h))

theorem sizeOf_insertKeyed {α : Type} [SizeOf α] {key : α → String} {a : α} :
    ∀ {l : List α}, sizeOf (insertKeyed key a l) = sizeOf (a :: l) := by
  intro l
  induction l with
  | nil => rfl
  | cons b r ih =>
    rw [insertKeyed]
    by_cases hk : key a ≤ key b
    · rw [if_pos hk]
    · rw [if_neg hk]
      simp only [List.cons.sizeOf_spec] at ih ⊢
      omega

theorem sizeOf_sortKeyed {α : Type} [SizeOf α] {key : α → String} :
    ∀ {l : List α}, sizeOf (sortKeyed key l) = sizeOf l := by
  intro l
  induction l with
  | nil => rfl
  | cons a r ih =>
    rw [sortKeyed, sizeOf_insertKeyed]
    simp only [List.cons.sizeOf_spec] at ih ⊢
    omega

theorem sizeOf_filter {α : Type} [SizeOf α] {p : α → Bool} :
    ∀ {l : List α}, sizeOf (l.filter p) ≤ sizeOf l := by
  intro l
  induction l with
  | nil => simp
  | cons a r ih =>
    rw [List.filter]
    cases p a
    · simp only [List.cons.sizeOf_spec]
      have : (0 : Nat) ≤ sizeOf a := Nat.zero_le _
      omega
    · simp only [List.cons.sizeOf_spec]
      omega

/-! ## Summarizer: `is_binary`, `read_file_contents`, `is_ignored` -/

/-- Model of `is_binary`: a null byte occurs among the first 1024 bytes of the file. -/
def is_binary (bytes : List Nat) : Bool :=
  (bytes.take 1024).contains 0

/-- Whitespace as `str.strip()` sees it (the ASCII whitespace characters;
the Unicode extras are irrelevant to this development). -/
def isPySpace (c : Char) : Bool :=
  c = ' ' || c = '\t' || c = '\n' || c = '\r' || c = '\x0b' || c = '\x0c'

/-- Python's `str.strip()` with no arguments: remove leading and trailing
whitespace. -/
def pyStrip (s : String) : String :=
  String.mk (((s.data.dropWhile isPySpace).reverse.dropWhile isPySpace).reverse)

/-- Python's `line.startswith('#')`: the first character is `#`. -/
def startsWithHash (line : String) : Bool :=
  match line.data with
  | '#' :: _ => true
  | _ => false

/-- Model of `read_file_contents`: try each encoding of the fixed list in order
(a decoder is a partial function, `none` when the codec raises); when all
fail, fall back to the byte read decoded with replacement of invalid
sequences; when even that raises, return the empty string. -/
def read_file_contents (encodings : List (List Nat → Option String))
    (fallbackDecode : List Nat → Option String) (bytes : List Nat) : String :=
  match encodings with
  | [] =>
    match fallbackDecode bytes with
    | some s => s
    | none => ""
  | d :: ds =>
    match d bytes with
    | some s => s
    | none => read_file_contents ds fallbackDecode bytes

/-- Model of `'**' in pattern`: two adjacent stars occur. -/
def hasStarStar : List Char → Bool
  | [] => false
  | [_] => false
  | a :: b :: r => (a == '*' && b == '*') || hasStarStar (b :: r)

/-- Model of `pattern.replace('**/', '')`: remove every (non-overlapping, left to
right) occurrence of `**/`. -/
def stripStarStarSlash : List Char → List Char
  | '*' :: '*' :: '/' :: rest => stripStarStarSlash rest
  | c :: rest => c :: stripStarStarSlash rest
  | [] => []

/-- Model of `if pattern.startswith('/'): pattern = pattern[1:]`. -/
def stripLeadingSlash : List Char → List Char
  | '/' :: r => r
  | r => r

/-- The four pattern lists `is_ignored` receives. -/
structure IgnoreCtx where
  gitignore_patterns : List String
  summaryignore_patterns : List String
  structureignore_patterns : List String
  additional_ignore_patterns : List String

/-- The body of the pattern loop of `is_ignored` (lines 39–53): normalize
the pattern's backslashes, rewrite a `**` pattern by removing every `**/`,
stripping one leading `/` and wrapping in `*...*`, then match the relative
path and the slash-prefixed relative path against it. -/
def matchesPattern (relative_path pattern : String) : Bool :=
  let pat := replaceChar '\\' '/' pattern
  let pat :=
    if hasStarStar pat.data then
      String.mk ('*' :: (stripLeadingSlash (stripStarStarSlash pat.data) ++ ['*']))
    else pat
  fnmatch relative_path pat || fnmatch ("/" ++ relative_path) pat

/-- Model of `is_ignored`: the relative path (already rendered from the path
components) is normalized to forward slashes; the checked patterns are the
gitignore patterns, the additional patterns, and — depending on
`check_structure` — the structure-ignore or the summary-ignore patterns. -/
def is_ignored (relative_path_raw : String) (ctx : IgnoreCtx) (check_structure : Bool) : Bool :=
  let relative_path := replaceChar '\\' '/' relative_path_raw
  let patterns_to_check := ctx.gitignore_patterns ++ ctx.additional_ignore_patterns ++
    (if check_structure then ctx.structureignore_patterns else ctx.summaryignore_patterns)
  patterns_to_check.any (fun pattern => matchesPattern relative_path pattern)

/-! ## Summarizer: the walker -/

/-- One line appended to the structure section.  `level` and `name` (and
the directory flag) are what the rendered line shows; `comps` additionally
records, for specification purposes, the relative path components of the
entry the line was appended for. -/
structure SLine where
  level : Nat
  comps : List String
  name : String
  isDir : Bool
deriving DecidableEq, Repr

/-- One block appended to the contents section: the relative path used as
heading and the decoded content; `comps` again records the components of
the file the block was appended for. -/
structure ContentEntry where
  comps : List String
  relPath : String
  content : String
deriving DecidableEq, Repr

/-- The per-file part of the loop of `traverse_directory` (lines 102–115):
a structure line unless structure-ignored; a contents block when contents
are included, the file is not binary, not content-ignored, and its decoded
content is non-empty after stripping. -/
def processFile (ctx : IgnoreCtx) (decode : List Nat → String) (include_contents : Bool)
    (name : String) (bytes : List Nat) (rc : List String) (level : Nat) :
    List SLine × List ContentEntry :=
  let comps := rc ++ [name]
  let relative_file_path := renderRel comps
  let slines : List SLine :=
    if is_ignored relative_file_path ctx true then []
    else [⟨level + 1, comps, name, false⟩]
  let centries : List ContentEntry :=
    if include_contents && !is_binary bytes then
      if is_ignored relative_file_path ctx false then []
      else
        let content := decode bytes
        if pyStrip content = "" then []
        else [⟨comps, relative_file_path, content⟩]
    else []
  (slines, centries)

/-- The subdirectory entries of a listing, in Python's sorted order (the
`dirs` list of the walker). -/
def dirEntries (children : List FSEntry) : List FSEntry :=
  sortKeyed entryName (children.filter isDirEntry)

/-- The file entries of a listing with their bytes, in sorted order (the
`files` list of the walker). -/
def fileEntries (children : List FSEntry) : List (String × List Nat) :=
  sortKeyed Prod.fst (children.filterMap (fun c =>
    match c with
    | .file n b => some (n, b)
    | .dir _ _ => none))

theorem sizeOf_dirEntries {name : String} {children : List FSEntry} :
    sizeOf (dirEntries children) < sizeOf (FSEntry.dir name children) := by
  rw [dirEntries, sizeOf_sortKeyed]
  have h : sizeOf (children.filter isDirEntry) ≤ sizeOf children := sizeOf_filter
  simp only [FSEntry.dir.sizeOf_spec]
  omega

mutual
/-- Model of `traverse_directory`: prune the three hard-coded directory names, prune
a structure-ignored directory, otherwise append the directory's line,
recurse into subdirectories in sorted order, then process files in sorted
order.  `rc` is the list of path components of this entry relative to the
project root (empty for the root itself); the two returned lists are the
chunks appended to the structure section and to the contents section, in
order. -/
def traverse_directory (ctx : IgnoreCtx) (decode : List Nat → String) :
    FSEntry → List String → Nat → Bool → List SLine × List ContentEntry
  | .file _ _, _, _, _ => ([], [])
  | .dir name children, rc, level, include_contents =>
    if name = "node_modules" ∨ name = ".git" ∨ name = "dist" then ([], [])
    else if is_ignored (renderRel rc) ctx true then ([], [])
    else
      let subResults := traverseList ctx decode (dirEntries children) rc level include_contents
      let fileResults := (fileEntries children).map
        (fun fb => processFile ctx decode include_contents fb.1 fb.2 rc level)
      (⟨level, rc, name, true⟩ :: ((subResults.map Prod.fst).flatten ++ (fileResults.map Prod.fst).flatten),
       (subResults.map Prod.snd).flatten ++ (fileResults.map Prod.snd).flatten)
termination_by e _ _ _ => sizeOf e
decreasing_by
  exact sizeOf_dirEntries

/-- The recursion of `traverse_directory` over a list of subdirectories
(the `for item in sorted(dirs)` loop), collecting each child's pair of
appended chunks. -/
def traverseList (ctx : IgnoreCtx) (decode : List Nat → String) :
    List FSEntry → List String → Nat → Bool → List (List SLine × List ContentEntry)
  | [], _, _, _ => []
  | e :: rest, rc, level, include_contents =>
    traverse_directory ctx decode e (rc ++ [entryName e]) (level + 1) include_contents ::
      traverseList ctx decode rest rc level include_contents
termination_by l _ _ _ => sizeOf l
decreasing_by
  · simp only [List.cons.sizeOf_spec]; omega
  · simp only [List.cons.sizeOf_spec]; omega
end

/-! ## Summarizer: ignore-file loading and the top-level function -/

/-- The list comprehension shared by the three ignore-file readers: each
line that is non-empty after stripping and does not start (unstripped) with
`#` contributes its stripped text as a pattern. -/
def read_ignore_lines (lines : List String) : List String :=
  lines.filterMap (fun line =>
    if pyStrip line = "" then none
    else if startsWithHash line then none
    else some (pyStrip line))

/-- The pattern-expansion step of the readers: the pattern itself, then a
`\`-separator copy when it contains `/`, then a `/`-separator copy when it
contains `\`. -/
def expandPattern (pattern : String) : List String :=
  [pattern]
    ++ (if pattern.data.contains '/' then [replaceChar '/' '\\' pattern] else [])
    ++ (if pattern.data.contains '\\' then [replaceChar '\\' '/' pattern] else [])

/-- Model of `read_gitignore`: `none` models an absent `.gitignore`; otherwise the
file's lines are filtered and expanded. -/
def read_gitignore : Option (List String) → List String
  | none => []
  | some lines => ((read_ignore_lines lines).map expandPattern).flatten

/-- Model of `read_summaryignore` (for `.summaryignore`); same body as
`read_gitignore`, as in the source. -/
def read_summaryignore : Option (List String) → List String
  | none => []
  | some lines => ((read_ignore_lines lines).map expandPattern).flatten

/-- Model of `read_structureignore` (for `.summarystructureignore`); same body as
`read_gitignore`, as in the source. -/
def read_structureignore : Option (List String) → List String
  | none => []
  | some lines => ((read_ignore_lines lines).map expandPattern).flatten

/-- The built-in exclusion list of `generate_project_summary` (line 64). -/
def additional_ignore_patterns (project_name : String) : List String :=
  ["generate_project_summary.py", ".summaryignore", ".summarystructureignore",
   project_name ++ "_project_summary.md", project_name ++ "_project_summary copy.md", ".git"]

/-- The four pattern lists `generate_project_summary` assembles. -/
def summaryCtx (project_name : String)
    (gitignoreFile summaryignoreFile structureignoreFile : Option (List String)) : IgnoreCtx :=
  ⟨read_gitignore gitignoreFile, read_summaryignore summaryignoreFile,
   read_structureignore structureignoreFile, additional_ignore_patterns project_name⟩

/-- Model of `generate_project_summary`, up to the final rendering: walk the project
directory (whose basename is `project_name`, with the given listing) from
the root with level 0 and contents included, returning the structure-section
and contents-section chunks. -/
def generate_project_summary (decode : List Nat → String) (project_name : String)
    (children : List FSEntry)
    (gitignoreFile summaryignoreFile structureignoreFile : Option (List String)) :
    List SLine × List ContentEntry :=
  traverse_directory (summaryCtx project_name gitignoreFile summaryignoreFile structureignoreFile)
    decode (.dir project_name children) [] 0 true

/-- The rendered text of one structure line: `'  ' * level`, a bullet, the
basename, a trailing `/` for directories. -/
def renderSLine (sl : SLine) : String :=
  String.join (List.replicate sl.level "  ") ++ "- " ++ sl.name ++
    (if sl.isDir then "/" else "") ++ "\n"

/-- The rendered text of one contents block. -/
def renderContentEntry (ce : ContentEntry) : String :=
  "### " ++ ce.relPath ++ "\n\n" ++ "```\n" ++ ce.content ++ "\n```\n\n"

/-- The full written document: header, structure section, contents section. -/
def render_summary (project_name : String) (r : List SLine × List ContentEntry) : String :=
  ("# " ++ project_name ++ "\n\n## Directory Structure\n\n" ++ String.join (r.1.map renderSLine))
    ++ ("\n## File Contents\n\n" ++ String.join (r.2.map renderContentEntry))

/-! ## Tree well-formedness and file addressing -/

/-- No two entries of a listing share a name (true of every real
directory listing). -/
def nodupNames : List FSEntry → Bool
  | [] => true
  | e :: l => !((l.map entryName).any (fun n => n == entryName e)) && nodupNames l

mutual
/-- Well-formedness of a tree: every listing, recursively, has pairwise
distinct entry names. -/
def wfTree : FSEntry → Bool
  | .file _ _ => true
  | .dir _ children => nodupNames children && wfForest children

/-- Well-formedness of every entry of a listing. -/
def wfForest : List FSEntry → Bool
  | [] => true
  | e :: l => wfTree e && wfForest l
end

theorem wfForest_mem : ∀ {l : List FSEntry} {e : FSEntry},
    wfForest l = true → e ∈ l → wfTree e = true := by
  intro l
  induction l with
  | nil => intro e _ h; simp at h
  | cons a r ih =>
    intro e hw hm
    rw [wfForest, Bool.and_eq_true] at hw
    rcases List.mem_cons.mp hm with h | h
    · rw [h]; exact hw.1
    · exact ih hw.2 h

theorem wfTree_dir {name : String} {children : List FSEntry}
    (h : wfTree (.dir name children) = true) :
    nodupNames children = true ∧ wfForest children = true := by
  rw [wfTree, Bool.and_eq_true] at h
  exact h

/-- In a listing with pairwise distinct names, an entry is determined by
its name. -/
theorem entry_inj : ∀ {l : List FSEntry} {a b : FSEntry},
    nodupNames l = true → a ∈ l → b ∈ l → entryName a = entryName b → a = b := by
  intro l
  induction l with
  | nil => intro a b _ ha; simp at ha
  | cons e r ih =>
    intro a b hn ha hb hname
    rw [nodupNames, Bool.and_eq_true] at hn
    obtain ⟨hn1, hn2⟩ := hn
    rw [Bool.not_eq_true', List.any_eq_false] at hn1
    rcases List.mem_cons.mp ha with ha' | ha' <;> rcases List.mem_cons.mp hb with hb' | hb'
    · rw [ha', hb']
    · exfalso
      have := hn1 (entryName b) (List.mem_map_of_mem entryName hb')
      exact this (beq_iff_eq.mpr (by rw [← hname, ha']))
    · exfalso
      have := hn1 (entryName a) (List.mem_map_of_mem entryName ha')
      exact this (beq_iff_eq.mpr (by rw [hname, hb']))
    · exact ih hn2 ha' hb' hname

/-- The file with contents `bytes` sits at relative component path `path`
inside the directory entry: `[name]` addresses a file of the listing
itself, `m :: path` descends into the subdirectory named `m`. -/
inductive FileIn : FSEntry → List String → List Nat → Prop
  | here {n : String} {children : List FSEntry} {name : String} {bytes : List Nat} :
      FSEntry.file name bytes ∈ children → FileIn (.dir n children) [name] bytes
  | there {n : String} {children : List FSEntry} {m : String} {cs : List FSEntry}
      {path : List String} {bytes : List Nat} :
      FSEntry.dir m cs ∈ children → FileIn (.dir m cs) path bytes →
      FileIn (.dir n children) (m :: path) bytes

theorem FileIn_ne_nil {e : FSEntry} {path : List String} {bytes : List Nat}
    (h : FileIn e path bytes) : path ≠ [] := by
  cases h <;> simp

/-- In a well-formed tree a component path addresses at most one file. -/
theorem FileIn_unique {e : FSEntry} {path : List String} {b b' : List Nat}
    (h1 : FileIn e path b) : wfTree e = true → FileIn e path b' → b = b' := by
  induction h1 with
  | here hmem =>
    intro hwf h2
    cases h2 with
    | here hmem' =>
      have := entry_inj (wfTree_dir hwf).1 hmem hmem' rfl
      injection this
    | there hdir hsub =>
      exact absurd rfl (FileIn_ne_nil hsub)
  | there hdir hsub ih =>
    intro hwf h2
    cases h2 with
    | here hmem' =>
      exact absurd rfl (FileIn_ne_nil hsub)
    | there hdir' hsub' =>
      have heq := entry_inj (wfTree_dir hwf).1 hdir' hdir rfl
      injection heq with _ hcs
      rw [hcs] at hsub'
      exact ih (wfForest_mem (wfTree_dir hwf).2 hdir) hsub'

/-! ## Traversal decomposition lemmas -/

theorem traverse_dir_eq {ctx : IgnoreCtx} {decode : List Nat → String}
    {name : String} {children : List FSEntry} {rc : List String} {level : Nat} {inc : Bool}
    (h1 : ¬(name = "node_modules" ∨ name = ".git" ∨ name = "dist"))
    (h2 : is_ignored (renderRel rc) ctx true = false) :
    traverse_directory ctx decode (.dir name children) rc level inc =
      (⟨level, rc, name, true⟩ ::
         (((traverseList ctx decode (dirEntries children) rc level inc).map Prod.fst).flatten ++
          (((fileEntries children).map
              (fun fb => processFile ctx decode inc fb.1 fb.2 rc level)).map Prod.fst).flatten),
       ((traverseList ctx decode (dirEntries children) rc level inc).map Prod.snd).flatten ++
         (((fileEntries children).map
             (fun fb => processFile ctx decode inc fb.1 fb.2 rc level)).map Prod.snd).flatten) := by
  rw [traverse_directory, if_neg h1, if_neg (by simp [h2])]

theorem traverse_pruned {ctx : IgnoreCtx} {decode : List Nat → String}
    {name : String} {children : List FSEntry} {rc : List String} {level : Nat} {inc : Bool}
    (h : (name = "node_modules" ∨ name = ".git" ∨ name = "dist") ∨
      is_ignored (renderRel rc) ctx true = true) :
    traverse_directory ctx decode (.dir name children) rc level inc = ([], []) := by
  rcases h with h | h
  · rw [traverse_directory, if_pos h]
  · rw [traverse_directory]
    by_cases h1 : name = "node_modules" ∨ name = ".git" ∨ name = "dist"
    · rw [if_pos h1]
    · rw [if_neg h1, if_pos (by simp [h])]

theorem mem_traverseList_snd {ctx : IgnoreCtx} {decode : List Nat → String} :
    ∀ {l : List FSEntry} {rc : List String} {level : Nat} {inc : Bool} {ce : ContentEntry},
      ce ∈ ((traverseList ctx decode l rc level inc).map Prod.snd).flatten →
      ∃ e ∈ l, ce ∈ (traverse_directory ctx decode e (rc ++ [entryName e]) (level + 1) inc).2 := by
  intro l
  induction l with
  | nil => intro rc level inc ce h; rw [traverseList] at h; simp at h
  | cons e rest ih =>
    intro rc level inc ce h
    rw [traverseList] at h
    simp only [List.map_cons, List.flatten_cons, List.mem_append] at h
    rcases h with h | h
    · exact ⟨e, by simp, h⟩
    · obtain ⟨e', he', hce⟩ := ih h
      exact ⟨e', by simp [he'], hce⟩

theorem mem_traverseList_fst {ctx : IgnoreCtx} {decode : List Nat → String} :
    ∀ {l : List FSEntry} {rc : List String} {level : Nat} {inc : Bool} {sl : SLine},
      sl ∈ ((traverseList ctx decode l rc level inc).map Prod.fst).flatten →
      ∃ e ∈ l, sl ∈ (traverse_directory ctx decode e (rc ++ [entryName e]) (level + 1) inc).1 := by
  intro l
  induction l with
  | nil => intro rc level inc sl h; rw [traverseList] at h; simp at h
  | cons e rest ih =>
    intro rc level inc sl h
    rw [traverseList] at h
    simp only [List.map_cons, List.flatten_cons, List.mem_append] at h
    rcases h with h | h
    · exact ⟨e, by simp, h⟩
    · obtain ⟨e', he', hsl⟩ := ih h
      exact ⟨e', by simp [he'], hsl⟩

theorem traverseList_fst_mem {ctx : IgnoreCtx} {decode : List Nat → String} :
    ∀ {l : List FSEntry} {rc : List String} {level : Nat} {inc : Bool} {e : FSEntry} {sl : SLine},
      e ∈ l → sl ∈ (traverse_directory ctx decode e (rc ++ [entryName e]) (level + 1) inc).1 →
      sl ∈ ((traverseList ctx decode l rc level inc).map Prod.fst).flatten := by
  intro l
  induction l with
  | nil => intro rc level inc e sl h; simp at h
  | cons a rest ih =>
    intro rc level inc e sl hmem hsl
    rw [traverseList]
    simp only [List.map_cons, List.flatten_cons, List.mem_append]
    rcases List.mem_cons.mp hmem with h | h
    · rw [h] at hsl
      exact Or.inl hsl
    · exact Or.inr (ih h hsl)

theorem mem_fileEntries {children : List FSEntry} {fb : String × List Nat}
    (h : fb ∈ fileEntries children) : FSEntry.file fb.1 fb.2 ∈ children := by
  rw [fileEntries] at h
  obtain ⟨c, hc, hm⟩ := List.mem_filterMap.mp (mem_sortKeyed h)
  cases c with
  | file n b =>
    simp only [Option.some.injEq] at hm
    rw [← hm]
    exact hc
  | dir n cs => simp at hm

theorem mem_dirEntries {children : List FSEntry} {e : FSEntry}
    (h : e ∈ dirEntries children) : e ∈ children ∧ isDirEntry e = true := by
  rw [dirEntries] at h
  exact List.mem_filter.mp (mem_sortKeyed h)

theorem mem_processFile_flatten_fst {ctx : IgnoreCtx} {decode : List Nat → String}
    {inc : Bool} {rc : List String} {level : Nat} {fl : List (String × List Nat)} {sl : SLine}
    (h : sl ∈ ((fl.map (fun fb => processFile ctx decode inc fb.1 fb.2 rc level)).map Prod.fst).flatten) :
    ∃ fb ∈ fl, sl ∈ (processFile ctx decode inc fb.1 fb.2 rc level).1 := by
  simp only [List.mem_flatten, List.mem_map] at h
  obtain ⟨s, ⟨pr, ⟨fb, hfb, hpr⟩, hs⟩, hsl⟩ := h
  exact ⟨fb, hfb, by rw [hpr, hs]; exact hsl⟩

theorem mem_processFile_flatten_snd {ctx : IgnoreCtx} {decode : List Nat → String}
    {inc : Bool} {rc : List String} {level : Nat} {fl : List (String × List Nat)} {ce : ContentEntry}
    (h : ce ∈ ((fl.map (fun fb => processFile ctx decode inc fb.1 fb.2 rc level)).map Prod.snd).flatten) :
    ∃ fb ∈ fl, ce ∈ (processFile ctx decode inc fb.1 fb.2 rc level).2 := by
  simp only [List.mem_flatten, List.mem_map] at h
  obtain ⟨s, ⟨pr, ⟨fb, hfb, hpr⟩, hs⟩, hce⟩ := h
  exact ⟨fb, hfb, by rw [hpr, hs]; exact hce⟩

theorem processFile_flatten_fst_mem {ctx : IgnoreCtx} {decode : List Nat → String}
    {inc : Bool} {rc : List String} {level : Nat} {fl : List (String × List Nat)}
    {fb : String × List Nat} {sl : SLine}
    (hfb : fb ∈ fl) (hsl : sl ∈ (processFile ctx decode inc fb.1 fb.2 rc level).1) :
    sl ∈ ((fl.map (fun fb => processFile ctx decode inc fb.1 fb.2 rc level)).map Prod.fst).flatten := by
  simp only [List.mem_flatten, List.mem_map]
  exact ⟨(processFile ctx decode inc fb.1 fb.2 rc level).1,
    ⟨processFile ctx decode inc fb.1 fb.2 rc level, ⟨fb, hfb, rfl⟩, rfl⟩, hsl⟩

/-! ## Per-file specifications and soundness of the walker -/

theorem processFile_fst_spec {ctx : IgnoreCtx} {decode : List Nat → String} {inc : Bool}
    {name : String} {bytes : List Nat} {rc : List String} {level : Nat} {sl : SLine}
    (h : sl ∈ (processFile ctx decode inc name bytes rc level).1) :
    sl = ⟨level + 1, rc ++ [name], name, false⟩ ∧
    is_ignored (renderRel (rc ++ [name])) ctx true = false := by
  simp only [processFile] at h
  by_cases hig : is_ignored (renderRel (rc ++ [name])) ctx true = true
  · rw [if_pos hig] at h
    simp at h
  · rw [if_neg hig] at h
    simp only [List.mem_singleton] at h
    exact ⟨h, by simpa using hig⟩

theorem processFile_snd_spec {ctx : IgnoreCtx} {decode : List Nat → String} {inc : Bool}
    {name : String} {bytes : List Nat} {rc : List String} {level : Nat} {ce : ContentEntry}
    (h : ce ∈ (processFile ctx decode inc name bytes rc level).2) :
    ce = ⟨rc ++ [name], renderRel (rc ++ [name]), decode bytes⟩ ∧
    inc = true ∧ is_binary bytes = false ∧
    is_ignored (renderRel (rc ++ [name])) ctx false = false ∧
    pyStrip (decode bytes) ≠ "" := by
  simp only [processFile] at h
  by_cases h1 : (inc && !is_binary bytes) = true
  · rw [if_pos h1] at h
    by_cases h2 : is_ignored (renderRel (rc ++ [name])) ctx false = true
    · rw [if_pos h2] at h
      simp at h
    · rw [if_neg h2] at h
      by_cases h3 : pyStrip (decode bytes) = ""
      · rw [if_pos h3] at h
        simp at h
      · rw [if_neg h3] at h
        simp only [List.mem_singleton] at h
        rw [Bool.and_eq_true, Bool.not_eq_true'] at h1
        exact ⟨h, h1.1, h1.2, by simpa using h2, h3⟩
  · rw [if_neg h1] at h
    simp at h

theorem processFile_fst_of_not_ignored {ctx : IgnoreCtx} {decode : List Nat → String}
    {inc : Bool} {name : String} {bytes : List Nat} {rc : List String} {level : Nat}
    (h : is_ignored (renderRel (rc ++ [name])) ctx true = false) :
    (processFile ctx decode inc name bytes rc level).1 =
      [⟨level + 1, rc ++ [name], name, false⟩] := by
  simp only [processFile]
  rw [if_neg (by simp [h])]

/-- The active pattern list does not depend on the variant flag when the
two variant-specific lists coincide. -/
theorem is_ignored_variant {rel : String} {ctx : IgnoreCtx}
    (hEq : ctx.structureignore_patterns = ctx.summaryignore_patterns) (b b' : Bool) :
    is_ignored rel ctx b = is_ignored rel ctx b' := by
  cases b <;> cases b' <;> simp [is_ignored, hEq]

theorem sizeOf_FSEntry_pos (e : FSEntry) : 0 < sizeOf e := by
  cases e with
  | file n b => simp only [FSEntry.file.sizeOf_spec]; omega
  | dir n c => simp only [FSEntry.dir.sizeOf_spec]; omega

theorem sizeOf_child_le {name : String} {children : List FSEntry} {e : FSEntry} {N : Nat}
    (hmem : e ∈ children) (he : sizeOf (FSEntry.dir name children) ≤ N + 1) :
    sizeOf e ≤ N := by
  have hlt := List.sizeOf_lt_of_mem hmem
  simp only [FSEntry.dir.sizeOf_spec] at he
  omega

/-- Every line of the structure section passed the structure-variant ignore
check on its own relative path. -/
theorem struct_sound {ctx : IgnoreCtx} {decode : List Nat → String} :
    ∀ (N : Nat) (e : FSEntry), sizeOf e ≤ N → ∀ (rc : List String) (level : Nat) (inc : Bool)
      (sl : SLine), sl ∈ (traverse_directory ctx decode e rc level inc).1 →
      is_ignored (renderRel sl.comps) ctx true = false := by
  intro N
  induction N with
  | zero =>
    intro e he
    exact absurd he (by have := sizeOf_FSEntry_pos e; omega)
  | succ N ih =>
    intro e he rc level inc sl hsl
    cases e with
    | file n b =>
      rw [traverse_directory] at hsl
      simp at hsl
    | dir name children =>
      by_cases h1 : name = "node_modules" ∨ name = ".git" ∨ name = "dist"
      · rw [traverse_pruned (Or.inl h1)] at hsl
        simp at hsl
      · by_cases h2 : is_ignored (renderRel rc) ctx true = true
        · rw [traverse_pruned (Or.inr h2)] at hsl
          simp at hsl
        · have h2' : is_ignored (renderRel rc) ctx true = false := by simpa using h2
          rw [traverse_dir_eq h1 h2'] at hsl
          simp only [List.mem_cons, List.mem_append] at hsl
          rcases hsl with hsl | hsl | hsl
          · rw [hsl]
            exact h2'
          · obtain ⟨e', he', hsl'⟩ := mem_traverseList_fst hsl
            exact ih e' (sizeOf_child_le (mem_dirEntries he').1 he) _ _ _ _ hsl'
          · obtain ⟨fb, hfb, hsl'⟩ := mem_processFile_flatten_fst hsl
            obtain ⟨hline, hig⟩ := processFile_fst_spec hsl'
            rw [hline]
            exact hig

/-- Every block of the contents section comes from a file of the tree that
is not binary, is not content-ignored, decodes to its recorded content, and
has non-empty stripped content; its recorded components address that file. -/
theorem contents_sound {ctx : IgnoreCtx} {decode : List Nat → String} :
    ∀ (N : Nat) (e : FSEntry), sizeOf e ≤ N → ∀ (rc : List String) (level : Nat) (inc : Bool)
      (ce : ContentEntry), ce ∈ (traverse_directory ctx decode e rc level inc).2 →
      ∃ (path : List String) (bytes : List Nat),
        FileIn e path bytes ∧ ce.comps = rc ++ path ∧
        ce.relPath = renderRel (rc ++ path) ∧ inc = true ∧ is_binary bytes = false ∧
        is_ignored (renderRel (rc ++ path)) ctx false = false ∧
        ce.content = decode bytes ∧ pyStrip ce.content ≠ "" := by
  intro N
  induction N with
  | zero =>
    intro e he
    exact absurd he (by have := sizeOf_FSEntry_pos e; omega)
  | succ N ih =>
    intro e he rc level inc ce hce
    cases e with
    | file n b =>
      rw [traverse_directory] at hce
      simp at hce
    | dir name children =>
      by_cases h1 : name = "node_modules" ∨ name = ".git" ∨ name = "dist"
      · rw [traverse_pruned (Or.inl h1)] at hce
        simp at hce
      · by_cases h2 : is_ignored (renderRel rc) ctx true = true
        · rw [traverse_pruned (Or.inr h2)] at hce
          simp at hce
        · have h2' : is_ignored (renderRel rc) ctx true = false := by simpa using h2
          rw [traverse_dir_eq h1 h2'] at hce
          simp only [List.mem_append] at hce
          rcases hce with hce | hce
          · obtain ⟨e', he', hce'⟩ := mem_traverseList_snd hce
            obtain ⟨hmem, hdir⟩ := mem_dirEntries he'
            obtain ⟨path', bytes, hfi, hcomps, hrel, hinc, hbin, hig, hcont, hstrip⟩ :=
              ih e' (sizeOf_child_le hmem he) _ _ _ _ hce'
            cases e' with
            | file _ _ => simp [isDirEntry] at hdir
            | dir m cs =>
              have hl : (rc ++ [entryName (FSEntry.dir m cs)]) ++ path' = rc ++ m :: path' := by
                simp [entryName]
              rw [hl] at hcomps hrel hig
              exact ⟨m :: path', bytes, FileIn.there hmem hfi, hcomps, hrel, hinc, hbin,
                hig, hcont, hstrip⟩
          · obtain ⟨fb, hfb, hce'⟩ := mem_processFile_flatten_snd hce
            obtain ⟨hentry, hinc, hbin, hig, hstrip⟩ := processFile_snd_spec hce'
            refine ⟨[fb.1], fb.2, FileIn.here (mem_fileEntries hfb), ?_, ?_, hinc, hbin, hig, ?_, ?_⟩
            · rw [hentry]
            · rw [hentry]
            · rw [hentry]
            · rw [hentry]
              exact hstrip

/-- When the two variant-specific pattern lists coincide, every contents
block has a matching (non-directory) structure line with the same
components. -/
theorem contents_to_struct {ctx : IgnoreCtx} {decode : List Nat → String}
    (hEq : ctx.structureignore_patterns = ctx.summaryignore_patterns) :
    ∀ (N : Nat) (e : FSEntry), sizeOf e ≤ N → ∀ (rc : List String) (level : Nat) (inc : Bool)
      (ce : ContentEntry), ce ∈ (traverse_directory ctx decode e rc level inc).2 →
      ∃ sl ∈ (traverse_directory ctx decode e rc level inc).1,
        sl.isDir = false ∧ sl.comps = ce.comps := by
  intro N
  induction N with
  | zero =>
    intro e he
    exact absurd he (by have := sizeOf_FSEntry_pos e; omega)
  | succ N ih =>
    intro e he rc level inc ce hce
    cases e with
    | file n b =>
      rw [traverse_directory] at hce
      simp at hce
    | dir name children =>
      by_cases h1 : name = "node_modules" ∨ name = ".git" ∨ name = "dist"
      · rw [traverse_pruned (Or.inl h1)] at hce
        simp at hce
      · by_cases h2 : is_ignored (renderRel rc) ctx true = true
        · rw [traverse_pruned (Or.inr h2)] at hce
          simp at hce
        · have h2' : is_ignored (renderRel rc) ctx true = false := by simpa using h2
          rw [traverse_dir_eq h1 h2'] at hce ⊢
          simp only [List.mem_append] at hce
          rcases hce with hce | hce
          · obtain ⟨e', he', hce'⟩ := mem_traverseList_snd hce
            obtain ⟨sl, hsl, hflat, hcomps⟩ := ih e' (sizeOf_child_le (mem_dirEntries he').1 he)
              _ _ _ _ hce'
            refine ⟨sl, ?_, hflat, hcomps⟩
            simp only [List.mem_cons, List.mem_append]
            exact Or.inr (Or.inl (traverseList_fst_mem he' hsl))
          · obtain ⟨fb, hfb, hce'⟩ := mem_processFile_flatten_snd hce
            obtain ⟨hentry, hinc, hbin, hig, hstrip⟩ := processFile_snd_spec hce'
            have higs : is_ignored (renderRel (rc ++ [fb.1])) ctx true = false := by
              rw [is_ignored_variant hEq true false]
              exact hig
            refine ⟨⟨level + 1, rc ++ [fb.1], fb.1, false⟩, ?_, rfl, by rw [hentry]⟩
            simp only [List.mem_cons, List.mem_append]
            refine Or.inr (Or.inr (processFile_flatten_fst_mem hfb ?_))
            rw [processFile_fst_of_not_ignored higs]
            simp

/-! ## Icon exporter (`create_app_icons`) -/

/-- An image as the exporter sees it: only the pixel dimensions matter
(decoding and encoding are primitives of the image library). -/
structure PILImage where
  width : Nat
  height : Nat
deriving DecidableEq, Repr, Inhabited

/-- Model of `img.resize((w, h), Image.Resampling.LANCZOS)`: the result has exactly
the requested dimensions (`img.copy()` is the identity on dimensions). -/
def imageResize (_img : PILImage) (w h : Nat) : PILImage := ⟨w, h⟩

/-- The `icon_sizes` dictionary, in insertion order. -/
def icon_sizes : List (String × Nat) :=
  [("32x32.png", 32), ("128x128.png", 128), ("128x128@2x.png", 256),
   ("Square30x30Logo.png", 30), ("Square44x44Logo.png", 44), ("Square71x71Logo.png", 71),
   ("Square89x89Logo.png", 89), ("Square107x107Logo.png", 107), ("Square142x142Logo.png", 142),
   ("Square150x150Logo.png", 150), ("Square284x284Logo.png", 284), ("Square310x310Logo.png", 310),
   ("StoreLogo.png", 175)]

/-- The macOS `.icns` frame sizes. -/
def icns_sizes : List Nat := [16, 32, 64, 128, 256, 512, 1024]

/-- The Windows `.ico` frame sizes. -/
def ico_sizes : List Nat := [16, 32, 48, 64, 128]

/-- What one run of the exporter produces (run as the script runs it, with
`tempfile` imported by the main block): the thirteen named files with their
images, the printed lines, the `.icns` frames and whether `iconutil`
packaged them, and the `.ico` save call's base image and sizes argument. -/
structure IconRun where
  files : List (String × PILImage)
  messages : List String
  icnsFrames : List PILImage
  icnsSaved : Bool
  icoBase : PILImage
  icoSizesArg : List (Nat × Nat)
deriving Repr

/-- Model of `create_app_icons`: resize and save the thirteen named icons; build the
`.icns` frames and run the external `iconutil` (an abstract `Except` — its
failure is caught, printed and not propagated); build the `.ico` frames and
save them with `ico_images[0]` (the 16-pixel frame) as base image and the
frame dimensions as the `sizes` argument. -/
def create_app_icons (base_image : PILImage) (iconutilResult : Except String Unit) : IconRun :=
  let named := icon_sizes.map (fun fs => (fs.1, imageResize base_image fs.2 fs.2))
  let namedMsgs := icon_sizes.map (fun fs => "Generated: " ++ fs.1)
  let icns_images := icns_sizes.map (fun s => imageResize base_image s s)
  let icnsStep :=
    match iconutilResult with
    | .ok _ => (true, "Generated: icon.icns")
    | .error e => (false, "Could not generate .icns file: " ++ e)
  let ico_images := ico_sizes.map (fun s => imageResize base_image s s)
  { files := named
    messages := namedMsgs ++ [icnsStep.2] ++ ["Generated: icon.ico"]
    icnsFrames := icns_images
    icnsSaved := icnsStep.1
    icoBase := ico_images.headD default
    icoSizesArg := ico_images.map (fun img => (img.width, img.height)) }

/-! ## Claim theorems -/

/-- C8: for any base image (and any outcome of the packaging step), the
exporter produces exactly the thirteen named raster files of the fixed
size table, each resized to its exact square dimension; in particular
`32x32.png` is exactly 32×32 and `Square310x310Logo.png` is exactly
310×310. -/
theorem create_app_icons_thirteen_files (base : PILImage) (res : Except String Unit) :
    (create_app_icons base res).files =
      icon_sizes.map (fun fs => (fs.1, PILImage.mk fs.2 fs.2)) ∧
    (create_app_icons base res).files.length = 13 ∧
    (create_app_icons base res).files.lookup "32x32.png" = some ⟨32, 32⟩ ∧
    (create_app_icons base res).files.lookup "Square310x310Logo.png" = some ⟨310, 310⟩ :=
  ⟨rfl, rfl, rfl, rfl⟩

/-- C9: when the external packaging step fails (for any failure message),
the run still completes: the failure is reported as a printed line and the
`.icns` file is not produced, but the `.ico` file still is, saved with the
16×16 frame — the smallest size of the list — as its base image, and with
all five frame dimensions passed to the save call. -/
theorem create_app_icons_iconutil_failure (base : PILImage) (e : String) :
    (create_app_icons base (.error e)).icnsSaved = false ∧
    ("Could not generate .icns file: " ++ e) ∈ (create_app_icons base (.error e)).messages ∧
    "Generated: icon.ico" ∈ (create_app_icons base (.error e)).messages ∧
    (create_app_icons base (.error e)).icoBase = ⟨16, 16⟩ ∧
    (create_app_icons base (.error e)).icoSizesArg =
      [(16, 16), (32, 32), (48, 48), (64, 64), (128, 128)] ∧
    ico_sizes.all (fun s => 16 ≤ s) = true ∧ 16 ∈ ico_sizes := by
  refine ⟨rfl, ?_, ?_, rfl, rfl, rfl, by decide⟩
  · simp [create_app_icons]
  · simp [create_app_icons]

/-- Separator normalization of a pattern neither creates nor destroys the
`**` marker. -/
theorem hasStarStar_map_slash : ∀ (l : List Char),
    hasStarStar (l.map (fun c => if c = '\\' then '/' else c)) = hasStarStar l := by
  intro l
  induction l with
  | nil => rfl
  | cons a r ih =>
    cases r with
    | nil => simp [hasStarStar]
    | cons b r' =>
      simp only [List.map_cons] at ih ⊢
      rw [hasStarStar, hasStarStar, ih]
      have ha : ((if a = '\\' then '/' else a) == '*') = (a == '*') := by
        by_cases h : a = '\\' <;> simp [h]
      have hb : ((if b = '\\' then '/' else b) == '*') = (b == '*') := by
        by_cases h : b = '\\' <;> simp [h]
      rw [ha, hb]

/-- The code's rewriting of a pattern containing `**` (after separator
normalization): every literal `**/` occurrence is deleted, one leading `/`
is stripped, and the remainder is wrapped in `*...*`. -/
def starstarRewrite (p : String) : String :=
  String.mk ('*' :: (stripLeadingSlash (stripStarStarSlash ((replaceChar '\\' '/' p).data)) ++ ['*']))

/-- C2 (amended): for every pattern containing `**`, the per-pattern
matching step equals shell-glob matching of the relative path, or the
slash-prefixed relative path, against the pattern rewritten by deleting
EVERY literal `**/` occurrence (not exactly one), stripping a leading `/`,
and wrapping in `*...*`. -/
theorem starstar_rewrite_amended (p rel : String) (h : hasStarStar p.data = true) :
    matchesPattern rel p =
      (fnmatch rel (starstarRewrite p) || fnmatch ("/" ++ rel) (starstarRewrite p)) := by
  simp only [matchesPattern, starstarRewrite, replaceChar]
  rw [if_pos (by rw [hasStarStar_map_slash]; exact h)]

/-- The rewriting described by the specification sentence behind claim C2,
stated from its words: delete exactly one (the first) literal `**/`
occurrence, strip a leading `/`, wrap in `*...*`. -/
def stripOneStarStarSlash : List Char → List Char
  | '*' :: '*' :: '/' :: rest => rest
  | c :: rest => c :: stripOneStarStarSlash rest
  | [] => []

/-- The one-occurrence rewriting of the specification's words (claim C2). -/
def starstarOnceRewrite (p : String) : String :=
  String.mk ('*' :: (stripLeadingSlash (stripOneStarStarSlash p.data) ++ ['*']))

/-- C2 (counterexample): for the pattern `**/a/**/b` and the path `a/b` the
code ignores the path (it deletes both `**/` occurrences, giving `*a/b*`),
while the rewriting the claim describes, deleting exactly one occurrence
(giving `*a/**/b*`), matches neither the path nor its `/`-prefixed form. -/
theorem starstar_rewrite_counterexample :
    is_ignored "a/b" ⟨["**/a/**/b"], [], [], []⟩ false = true ∧
    (fnmatch "a/b" (starstarOnceRewrite "**/a/**/b") ||
      fnmatch ("/" ++ "a/b") (starstarOnceRewrite "**/a/**/b")) = false := by
  constructor
  · simp +decide [is_ignored, matchesPattern, replaceChar, fnmatch, globMatch, hasStarStar,
      stripLeadingSlash, stripStarStarSlash, bracketSplit, scanClose, List.any_cons, List.any_nil]
  · simp +decide [starstarOnceRewrite, stripOneStarStarSlash, stripLeadingSlash, fnmatch,
      globMatch, bracketSplit, scanClose, bracketMatch, bracketMem]

/-- C2 (witness for the amended theorem): the pattern `**/x` contains `**`,
and on the path `x` the matching step equals the rewritten-pattern match. -/
theorem starstar_rewrite_amended_witness :
    hasStarStar "**/x".data = true ∧
    matchesPattern "x" "**/x" =
      (fnmatch "x" (starstarRewrite "**/x") || fnmatch ("/" ++ "x") (starstarRewrite "**/x")) :=
  ⟨by decide, starstar_rewrite_amended "**/x" "x" (by decide)⟩

/-- Normalizing separators after swapping `/` to `\` is the same as
normalizing directly. -/
theorem replaceChar_norm_swap1 (p : String) :
    replaceChar '\\' '/' (replaceChar '/' '\\' p) = replaceChar '\\' '/' p := by
  simp only [replaceChar, List.map_map]
  congr 1
  apply List.map_congr_left
  intro c _
  simp only [Function.comp_apply]
  by_cases h1 : c = '/'
  · simp [h1]
  · by_cases h2 : c = '\\' <;> simp [h1, h2]

/-- Normalizing separators is idempotent. -/
theorem replaceChar_norm_swap2 (p : String) :
    replaceChar '\\' '/' (replaceChar '\\' '/' p) = replaceChar '\\' '/' p := by
  simp only [replaceChar, List.map_map]
  congr 1
  apply List.map_congr_left
  intro c _
  simp only [Function.comp_apply]
  by_cases h2 : c = '\\' <;> simp [h2]

theorem matchesPattern_swap1 (rel p : String) :
    matchesPattern rel (replaceChar '/' '\\' p) = matchesPattern rel p := by
  simp only [matchesPattern]
  rw [replaceChar_norm_swap1]

theorem matchesPattern_swap2 (rel p : String) :
    matchesPattern rel (replaceChar '\\' '/' p) = matchesPattern rel p := by
  simp only [matchesPattern]
  rw [replaceChar_norm_swap2]

theorem mem_expanded_of_mem {lines : List String} {p x : String}
    (hp : p ∈ read_ignore_lines lines) (hx : x ∈ expandPattern p) :
    x ∈ ((read_ignore_lines lines).map expandPattern).flatten := by
  simp only [List.mem_flatten, List.mem_map]
  exact ⟨expandPattern p, ⟨p, hp, rfl⟩, hx⟩

theorem swap1_mem_expandPattern {p : String} (h : p.data.contains '/' = true) :
    replaceChar '/' '\\' p ∈ expandPattern p := by
  rw [expandPattern, if_pos h]
  simp

theorem swap2_mem_expandPattern {p : String} (h : p.data.contains '\\' = true) :
    replaceChar '\\' '/' p ∈ expandPattern p := by
  rw [expandPattern, if_pos h]
  simp

/-- C3: every pattern of an ignore file that contains `/` gets its
`\`-separator counterpart added to the rule set built by any of the three
readers, and vice versa; and the per-pattern matching step gives the same
verdict on every path for the swapped counterpart as for the original,
because both normalize to the same pattern. -/
theorem separator_counterpart_spec (lines : List String) (p rel : String)
    (hp : p ∈ read_ignore_lines lines) :
    (p.data.contains '/' = true →
      replaceChar '/' '\\' p ∈ read_gitignore (some lines) ∧
      replaceChar '/' '\\' p ∈ read_summaryignore (some lines) ∧
      replaceChar '/' '\\' p ∈ read_structureignore (some lines)) ∧
    (p.data.contains '\\' = true →
      replaceChar '\\' '/' p ∈ read_gitignore (some lines) ∧
      replaceChar '\\' '/' p ∈ read_summaryignore (some lines) ∧
      replaceChar '\\' '/' p ∈ read_structureignore (some lines)) ∧
    matchesPattern rel (replaceChar '/' '\\' p) = matchesPattern rel p ∧
    matchesPattern rel (replaceChar '\\' '/' p) = matchesPattern rel p := by
  refine ⟨fun h => ?_, fun h => ?_, matchesPattern_swap1 rel p, matchesPattern_swap2 rel p⟩
  · have hm := mem_expanded_of_mem hp (swap1_mem_expandPattern h)
    exact ⟨hm, hm, hm⟩
  · have hm := mem_expanded_of_mem hp (swap2_mem_expandPattern h)
    exact ⟨hm, hm, hm⟩

/-- C3 (witness): the pattern `a/b` of a one-line ignore file, checked on
the path `a/b`. -/
theorem separator_counterpart_spec_witness :
    ("a/b" ∈ read_ignore_lines ["a/b"]) ∧
    (("a/b".data.contains '/' = true →
      replaceChar '/' '\\' "a/b" ∈ read_gitignore (some ["a/b"]) ∧
      replaceChar '/' '\\' "a/b" ∈ read_summaryignore (some ["a/b"]) ∧
      replaceChar '/' '\\' "a/b" ∈ read_structureignore (some ["a/b"])) ∧
    ("a/b".data.contains '\\' = true →
      replaceChar '\\' '/' "a/b" ∈ read_gitignore (some ["a/b"]) ∧
      replaceChar '\\' '/' "a/b" ∈ read_summaryignore (some ["a/b"]) ∧
      replaceChar '\\' '/' "a/b" ∈ read_structureignore (some ["a/b"])) ∧
    matchesPattern "a/b" (replaceChar '/' '\\' "a/b") = matchesPattern "a/b" "a/b" ∧
    matchesPattern "a/b" (replaceChar '\\' '/' "a/b") = matchesPattern "a/b" "a/b") :=
  ⟨by decide, separator_counterpart_spec ["a/b"] "a/b" "a/b" (by decide)⟩

/-- A string free of the glob metacharacters `*`, `?` and `[`: it matches
itself under shell-glob semantics. -/
def globLiteral (s : String) : Bool :=
  s.data.all (fun c => !(c == '*' || c == '?' || c == '['))

theorem globMatch_self : ∀ (l : List Char),
    (∀ c ∈ l, ¬(c = '*' ∨ c = '?' ∨ c = '[')) → globMatch l l = true := by
  intro l
  induction l with
  | nil => intro _; rw [globMatch]
  | cons c r ih =>
    intro h
    have hc := h c (by simp)
    push_neg at hc
    obtain ⟨h1, h2, h3⟩ := hc
    rw [globMatch, if_neg h1, if_neg h2, if_neg h3]
    show ((c == c) && globMatch r r) = true
    rw [Bool.and_eq_true, beq_self_eq_true]
    exact ⟨rfl, ih (fun c' hc' => h c' (by simp [hc']))⟩

theorem hasStarStar_eq_false_of_no_star : ∀ {l : List Char},
    (∀ c ∈ l, c ≠ '*') → hasStarStar l = false := by
  intro l
  induction l with
  | nil => intro _; rfl
  | cons a r ih =>
    intro h
    cases r with
    | nil => rfl
    | cons b r' =>
      rw [hasStarStar, Bool.or_eq_false_iff]
      constructor
      · rw [Bool.and_eq_false_iff]
        exact Or.inl (by simpa using h a (by simp))
      · exact ih (fun c hc => h c (by simp at hc ⊢; tauto))

theorem globLiteral_map_slash {l : List Char}
    (h : ∀ c ∈ l, ¬(c = '*' ∨ c = '?' ∨ c = '[')) :
    ∀ c ∈ l.map (fun c => if c = '\\' then '/' else c), ¬(c = '*' ∨ c = '?' ∨ c = '[') := by
  intro c hc
  obtain ⟨c0, hc0, hrw⟩ := List.mem_map.mp hc
  rw [← hrw]
  by_cases hb : c0 = '\\'
  · simp [hb]
  · rw [if_neg hb]
    exact h c0 hc0

/-- A glob-literal string, used as both pattern and path, matches itself
under the per-pattern matching step. -/
theorem matchesPattern_self {s : String} (h : globLiteral s = true) :
    matchesPattern (replaceChar '\\' '/' s) s = true := by
  simp only [globLiteral, List.all_eq_true, Bool.not_eq_true', Bool.or_eq_false_iff,
    beq_eq_false_iff_ne] at h
  have h' : ∀ c ∈ s.data, ¬(c = '*' ∨ c = '?' ∨ c = '[') := by
    intro c hc
    have := h c hc
    tauto
  have hn := globLiteral_map_slash h'
  simp only [matchesPattern, replaceChar]
  rw [if_neg]
  · rw [Bool.or_eq_true]
    exact Or.inl (globMatch_self _ hn)
  · rw [hasStarStar_eq_false_of_no_star (fun c hc => fun he => (hn c hc) (Or.inl he))]
    simp

/-- The generated document's file name is self-ignored under both rule-set
variants whenever it is glob-literal: it is one of the built-in patterns
and matches itself. -/
theorem summary_name_self_ignored {project_name : String}
    (g s t : Option (List String)) (b : Bool)
    (h : globLiteral (project_name ++ "_project_summary.md") = true) :
    is_ignored (project_name ++ "_project_summary.md")
      (summaryCtx project_name g s t) b = true := by
  simp only [is_ignored, List.any_eq_true]
  refine ⟨project_name ++ "_project_summary.md", ?_, matchesPattern_self h⟩
  simp only [List.mem_append]
  refine Or.inl (Or.inr ?_)
  simp [summaryCtx, additional_ignore_patterns]

/-- C10 (amended): the built-in ignore list always contains the generated
document's file name, and — provided that name contains no glob
metacharacter (`*`, `?`, `[`) — no structure line and no contents block is
ever produced for the root-level file of that name, on any run. -/
theorem summary_self_exclusion_amended
    (decode : List Nat → String) (project_name : String) (children : List FSEntry)
    (g s t : Option (List String))
    (hlit : globLiteral (project_name ++ "_project_summary.md") = true) :
    ((project_name ++ "_project_summary.md") ∈ additional_ignore_patterns project_name) ∧
    ((generate_project_summary decode project_name children g s t).1.all
      (fun sl => sl.comps != [project_name ++ "_project_summary.md"])) = true ∧
    ((generate_project_summary decode project_name children g s t).2.all
      (fun ce => ce.comps != [project_name ++ "_project_summary.md"])) = true := by
  refine ⟨by simp [additional_ignore_patterns], ?_, ?_⟩
  · rw [List.all_eq_true]
    intro sl hsl
    rw [bne_iff_ne]
    intro hcomps
    simp only [generate_project_summary] at hsl
    have hig := struct_sound (sizeOf (FSEntry.dir project_name children)) _ (le_refl _)
      _ _ _ _ hsl
    rw [hcomps] at hig
    have hr : renderRel [project_name ++ "_project_summary.md"] =
        project_name ++ "_project_summary.md" := rfl
    rw [hr, summary_name_self_ignored g s t true hlit] at hig
    simp at hig
  · rw [List.all_eq_true]
    intro ce hce
    rw [bne_iff_ne]
    intro hcomps
    simp only [generate_project_summary] at hce
    obtain ⟨path, bytes, _, hc, _, _, _, hig, _, _⟩ :=
      contents_sound (sizeOf (FSEntry.dir project_name children)) _ (le_refl _) _ _ _ _ hce
    rw [hcomps] at hc
    rw [List.nil_append] at hc
    rw [← hc, List.nil_append] at hig
    have hr : renderRel [project_name ++ "_project_summary.md"] =
        project_name ++ "_project_summary.md" := rfl
    rw [hr, summary_name_self_ignored g s t false hlit] at hig
    simp at hig

/-- C10 (witness for the amended theorem): the name
`proj_project_summary.md` is glob-literal and is one of the built-in
patterns for project `proj`. -/
theorem summary_self_exclusion_amended_witness :
    ("proj_project_summary.md" ∈ additional_ignore_patterns "proj") :=
  (summary_self_exclusion_amended (fun _ => "x") "proj"
    [.file "proj_project_summary.md" [104]] none none none (by decide)).1

/-- C10 (counterexample): for a project named `a[b]` the built-in list does
contain the generated file's name, yet on a directory holding a previous
summary file of exactly that name the file appears in the structure section
and its content is dumped — the name's `[b]` is read as a character class
and fails to match itself. -/
theorem summary_self_exclusion_counterexample :
    ("a[b]_project_summary.md" ∈ additional_ignore_patterns "a[b]") ∧
    ((generate_project_summary (fun _ => "hi") "a[b]"
        [.file "a[b]_project_summary.md" [104, 105]] none none none).1.map SLine.comps) =
      [[], ["a[b]_project_summary.md"]] ∧
    ((generate_project_summary (fun _ => "hi") "a[b]"
        [.file "a[b]_project_summary.md" [104, 105]] none none none).2.map ContentEntry.comps) =
      [["a[b]_project_summary.md"]] := by
  refine ⟨by simp [additional_ignore_patterns], ?_, ?_⟩ <;>
    simp +decide [generate_project_summary, summaryCtx, traverse_directory, traverseList,
      processFile, dirEntries, fileEntries, is_ignored, matchesPattern, replaceChar, fnmatch,
      globMatch, hasStarStar, stripLeadingSlash, stripStarStarSlash, bracketSplit, scanClose,
      bracketMatch, bracketMem, renderRel, is_binary, pyStrip, isPySpace, startsWithHash,
      read_gitignore, read_summaryignore, read_structureignore, read_ignore_lines, expandPattern,
      additional_ignore_patterns, sortKeyed, insertKeyed, entryName, isDirEntry,
      List.any_cons, List.any_nil, List.filter_cons, List.filterMap_cons]

/-- C1 (counterexample): in the spec's scenario — a project holding
`a/b/c.txt` (non-empty text) and a `.gitignore` whose only pattern is
`a/b/` — the structure section does NOT omit `b/` and `c.txt` (both are
listed) and the contents section DOES hold a block for `c.txt`: the
trailing-slash pattern `a/b/` matches no relative path under `fnmatch`. -/
theorem scenario_gitignore_dir_counterexample :
    ((generate_project_summary (fun _ => "hi") "proj"
        [.dir "a" [.dir "b" [.file "c.txt" [104, 105]]], .file ".gitignore" [97]]
        (some ["a/b/"]) none none).1.map SLine.comps) =
      [[], ["a"], ["a", "b"], ["a", "b", "c.txt"], [".gitignore"]] ∧
    ((generate_project_summary (fun _ => "hi") "proj"
        [.dir "a" [.dir "b" [.file "c.txt" [104, 105]]], .file ".gitignore" [97]]
        (some ["a/b/"]) none none).2.map ContentEntry.comps) =
      [["a", "b", "c.txt"], [".gitignore"]] := by
  constructor <;>
    simp +decide [generate_project_summary, summaryCtx, traverse_directory, traverseList,
      processFile, dirEntries, fileEntries, is_ignored, matchesPattern, replaceChar, fnmatch,
      globMatch, hasStarStar, stripLeadingSlash, stripStarStarSlash, bracketSplit, scanClose,
      bracketMatch, bracketMem, renderRel, is_binary, pyStrip, isPySpace, startsWithHash,
      read_gitignore, read_summaryignore, read_structureignore, read_ignore_lines, expandPattern,
      additional_ignore_patterns, sortKeyed, insertKeyed, entryName, isDirEntry,
      List.any_cons, List.any_nil, List.filter_cons, List.filterMap_cons]

/-- C1 (amended): the scenario's outcome holds for the pattern `a/b`
(no trailing slash): the structure section omits `b/` and `c.txt` entirely
(only the root, `a/` and `.gitignore` are listed, the walker pruning at
`a/b`) and the contents section has no block for `c.txt`. -/
theorem scenario_gitignore_dir_amended :
    ((generate_project_summary (fun _ => "hi") "proj"
        [.dir "a" [.dir "b" [.file "c.txt" [104, 105]]], .file ".gitignore" [97]]
        (some ["a/b"]) none none).1.map SLine.comps) = [[], ["a"], [".gitignore"]] ∧
    ((generate_project_summary (fun _ => "hi") "proj"
        [.dir "a" [.dir "b" [.file "c.txt" [104, 105]]], .file ".gitignore" [97]]
        (some ["a/b"]) none none).2.map ContentEntry.comps) = [[".gitignore"]] := by
  constructor <;>
    simp +decide [generate_project_summary, summaryCtx, traverse_directory, traverseList,
      processFile, dirEntries, fileEntries, is_ignored, matchesPattern, replaceChar, fnmatch,
      globMatch, hasStarStar, stripLeadingSlash, stripStarStarSlash, bracketSplit, scanClose,
      bracketMatch, bracketMem, renderRel, is_binary, pyStrip, isPySpace, startsWithHash,
      read_gitignore, read_summaryignore, read_structureignore, read_ignore_lines, expandPattern,
      additional_ignore_patterns, sortKeyed, insertKeyed, entryName, isDirEntry,
      List.any_cons, List.any_nil, List.filter_cons, List.filterMap_cons]

/-- C4: a directory whose relative path is matched by the structure-variant
ignore check contributes nothing at all to either section — the walker
returns from it before listing it or visiting any child, so no entry for it
or for anything nested below it can appear. -/
theorem structure_ignored_dir_contributes_nothing
    (ctx : IgnoreCtx) (decode : List Nat → String) (name : String) (children : List FSEntry)
    (rc : List String) (level : Nat) (inc : Bool)
    (h : is_ignored (renderRel rc) ctx true = true) :
    traverse_directory ctx decode (.dir name children) rc level inc = ([], []) :=
  traverse_pruned (Or.inr h)

/-- C4 (witness): a directory `b` with a nested file, under a
structure-ignore pattern `b`, contributes nothing. -/
theorem structure_ignored_dir_contributes_nothing_witness :
    is_ignored (renderRel ["b"]) ⟨[], [], ["b"], []⟩ true = true ∧
    traverse_directory ⟨[], [], ["b"], []⟩ (fun _ => "x")
      (.dir "b" [.file "c.txt" [104]]) ["b"] 1 true = ([], []) := by
  have h : is_ignored (renderRel ["b"]) ⟨[], [], ["b"], []⟩ true = true := by
    simp +decide [is_ignored, renderRel, matchesPattern, replaceChar, fnmatch, globMatch,
      hasStarStar, stripLeadingSlash, stripStarStarSlash, List.any_cons, List.any_nil]
  exact ⟨h, structure_ignored_dir_contributes_nothing _ _ _ _ _ _ _ h⟩

/-- C5: a file can appear in the structure section while being absent from
the contents section (first conjunct: a file whose name is a
summary-ignore pattern only); and whenever the two variant-specific pattern
lists are both empty — so that only the shared base patterns decide both
checks, identically — every contents block has a structure line for the
same file, so the converse never occurs (second conjunct). -/
theorem structure_vs_contents_asymmetry :
    (((traverse_directory ⟨[], ["x.txt"], [], []⟩ (fun _ => "x")
        (.dir "p" [.file "x.txt" [104]]) [] 0 true).1.map SLine.comps) = [[], ["x.txt"]] ∧
      (traverse_directory ⟨[], ["x.txt"], [], []⟩ (fun _ => "x")
        (.dir "p" [.file "x.txt" [104]]) [] 0 true).2 = []) ∧
    (∀ (ctx : IgnoreCtx) (decode : List Nat → String) (e : FSEntry) (rc : List String)
      (level : Nat) (inc : Bool) (ce : ContentEntry),
        ctx.structureignore_patterns = [] → ctx.summaryignore_patterns = [] →
        ce ∈ (traverse_directory ctx decode e rc level inc).2 →
        ∃ sl ∈ (traverse_directory ctx decode e rc level inc).1,
          sl.isDir = false ∧ sl.comps = ce.comps) := by
  constructor
  · constructor <;>
      simp +decide [traverse_directory, traverseList, processFile, dirEntries, fileEntries,
        is_ignored, matchesPattern, replaceChar, fnmatch, globMatch, hasStarStar,
        stripLeadingSlash, stripStarStarSlash, renderRel, is_binary, pyStrip, isPySpace,
        sortKeyed, insertKeyed, entryName, isDirEntry,
        List.any_cons, List.any_nil, List.filter_cons, List.filterMap_cons]
  · intro ctx decode e rc level inc ce h1 h2 hce
    exact contents_to_struct (by rw [h1, h2]) (sizeOf e) e (le_refl _) _ _ _ _ hce

/-- C6: a file classified as binary (a null byte among its first 1024
bytes) never gets a contents block: in a well-formed tree, no contents
block produced by the walker carries the binary file's path components,
whatever the ignore patterns say. -/
theorem binary_never_in_contents
    (ctx : IgnoreCtx) (decode : List Nat → String) (e : FSEntry) (rc : List String)
    (level : Nat) (inc : Bool) (path : List String) (bytes : List Nat)
    (hwf : wfTree e = true) (hfi : FileIn e path bytes) (hbin : is_binary bytes = true) :
    ((traverse_directory ctx decode e rc level inc).2.all
      (fun ce => ce.comps != rc ++ path)) = true := by
  rw [List.all_eq_true]
  intro ce hce
  rw [bne_iff_ne]
  intro heq
  obtain ⟨path', bytes', hfi', hcomps, _, _, hbin', _, _, _⟩ :=
    contents_sound (sizeOf e) e (le_refl _) rc level inc ce hce
  rw [heq] at hcomps
  have hpp : path = path' := List.append_cancel_left hcomps
  rw [← hpp] at hfi'
  have hb := FileIn_unique hfi hwf hfi'
  rw [← hb] at hbin'
  rw [hbin] at hbin'
  exact absurd hbin' (by simp)

/-- C6 (witness): a binary file `b.bin` (its single byte is null) next to a
text file never gets a contents block. -/
theorem binary_never_in_contents_witness :
    ((traverse_directory ⟨[], [], [], []⟩ (fun _ => "x")
        (.dir "p" [.file "b.bin" [0], .file "t.txt" [104]]) [] 0 true).2.all
      (fun ce => ce.comps != ["b.bin"])) = true :=
  binary_never_in_contents ⟨[], [], [], []⟩ (fun _ => "x")
    (.dir "p" [.file "b.bin" [0], .file "t.txt" [104]]) [] 0 true ["b.bin"] [0]
    (by simp +decide [wfTree, wfForest, nodupNames, entryName, List.any_cons, List.any_nil])
    (FileIn.here (by simp)) (by decide)

/-- C7: reading a file's content tries the decoders in order — the first
decoder that succeeds, all earlier ones having failed, gives the result;
when every named decoder fails the replacement-decoding fallback gives the
result; when that also fails the read yields the empty string; and no
contents block the walker appends ever has content that is empty after
stripping (so a file whose read came back empty is skipped). -/
theorem read_file_contents_spec :
    (∀ (pre : List (List Nat → Option String)) (d : List Nat → Option String)
        (post : List (List Nat → Option String)) (fb : List Nat → Option String)
        (b : List Nat) (s : String),
        (∀ d' ∈ pre, d' b = none) → d b = some s →
        read_file_contents (pre ++ d :: post) fb b = s) ∧
    (∀ (encs : List (List Nat → Option String)) (fb : List Nat → Option String)
        (b : List Nat) (s : String),
        (∀ d ∈ encs, d b = none) → fb b = some s → read_file_contents encs fb b = s) ∧
    (∀ (encs : List (List Nat → Option String)) (fb : List Nat → Option String) (b : List Nat),
        (∀ d ∈ encs, d b = none) → fb b = none → read_file_contents encs fb b = "") ∧
    (∀ (ctx : IgnoreCtx) (decode : List Nat → String) (e : FSEntry) (rc : List String)
        (level : Nat) (inc : Bool) (ce : ContentEntry),
        ce ∈ (traverse_directory ctx decode e rc level inc).2 → pyStrip ce.content ≠ "") := by
  refine ⟨?_, ?_, ?_, ?_⟩
  · intro pre
    induction pre with
    | nil =>
      intro d post fb b s _ hd
      rw [List.nil_append, read_file_contents, hd]
    | cons d0 rest ih =>
      intro d post fb b s hpre hd
      rw [List.cons_append, read_file_contents, hpre d0 (by simp)]
      exact ih d post fb b s (fun d' hd' => hpre d' (by simp [hd'])) hd
  · intro encs
    induction encs with
    | nil =>
      intro fb b s _ hfb
      rw [read_file_contents, hfb]
    | cons d0 rest ih =>
      intro fb b s hencs hfb
      rw [read_file_contents, hencs d0 (by simp)]
      exact ih fb b s (fun d' hd' => hencs d' (by simp [hd'])) hfb
  · intro encs
    induction encs with
    | nil =>
      intro fb b _ hfb
      rw [read_file_contents, hfb]
    | cons d0 rest ih =>
      intro fb b hencs hfb
      rw [read_file_contents, hencs d0 (by simp)]
      exact ih fb b (fun d' hd' => hencs d' (by simp [hd'])) hfb
  · intro ctx decode e rc level inc ce hce
    obtain ⟨_, _, _, _, _, _, _, _, _, hstrip⟩ :=
      contents_sound (sizeOf e) e (le_refl _) rc level inc ce hce
    exact hstrip
